import Mathlib

/-!
Shallow embedding of `src/createMazeWidget.js` (maze-widget repository).

Coordinates are integers `(x, y)` with `x` the column and `y` the row, exactly as in the
source, where the grid is indexed `grid[y][x]`.  A grid is modelled as a total function
from coordinates to cells; the JavaScript code only ever reads or writes in-bounds
coordinates during carving (this is one of the verified claims), so the values of the
function outside `[0, cols) × [0, rows)` are never relevant to an in-bounds claim.

JavaScript numbers are IEEE doubles, but every arithmetic operation performed by the
generator is exact in doubles: the LCG state stays below 2^32, so `state * 1664525 +
1013904223` stays below 2^53 and `>>> 0` is exactly reduction mod 2^32; and
`Math.floor(rnd() * unv.length)` with `rnd() = state / 2^32` and `unv.length ≤ 4` equals
the integer `state * unv.length / 2^32` (flooring division).  The embedding therefore
uses `Nat` with explicit `% 2 ^ 32`.
-/

namespace MazeWidget

/-- The four wall sides of a cell, as named in the source (`"top"`, `"right"`,
`"bottom"`, `"left"`). -/
inductive Side where
  | top
  | right
  | bottom
  | left
deriving DecidableEq, Repr

/-- The `walls` record of a cell: `true` means the wall is present. -/
structure WallSet where
  top : Bool
  right : Bool
  bottom : Bool
  left : Bool
deriving DecidableEq, Repr

/-- One cell of the grid, as produced by `createGrid`. -/
structure Cell where
  visited : Bool
  walls : WallSet
deriving DecidableEq, Repr

/-- A grid maps a coordinate `(x, y)` to its cell (`grid[y][x]` in the source). -/
abbrev Grid := ℤ × ℤ → Cell

/-- Dynamic access `walls[side]`. -/
def wallAt (w : WallSet) : Side → Bool
  | .top => w.top
  | .right => w.right
  | .bottom => w.bottom
  | .left => w.left

/-- Dynamic update `walls[side] = b`. -/
def setSide (w : WallSet) : Side → Bool → WallSet
  | .top, b => { w with top := b }
  | .right, b => { w with right := b }
  | .bottom, b => { w with bottom := b }
  | .left, b => { w with left := b }

/-- The opposite side (`top↔bottom`, `right↔left`), the `opp` column of the `dirs`
table in the source. -/
def oppSide : Side → Side
  | .top => .bottom
  | .right => .left
  | .bottom => .top
  | .left => .right

/-- The coordinate offset `(dx, dy)` of each side, the `dx`/`dy` columns of the `dirs`
table in the source. -/
def sideDelta : Side → ℤ × ℤ
  | .top => (0, -1)
  | .right => (1, 0)
  | .bottom => (0, 1)
  | .left => (-1, 0)

/-- The neighbouring coordinate of `p` across side `s`. -/
def shift (p : ℤ × ℤ) (s : Side) : ℤ × ℤ :=
  (p.1 + (sideDelta s).1, p.2 + (sideDelta s).2)

/-- `grid[p.y][p.x].walls[s] = b`, as a functional update. -/
def setWall (g : Grid) (p : ℤ × ℤ) (s : Side) (b : Bool) : Grid :=
  fun q => if q = p then { g p with walls := setSide (g p).walls s b } else g q

/-- `grid[p.y][p.x].visited = true`, as a functional update. -/
def setVisited (g : Grid) (p : ℤ × ℤ) : Grid :=
  fun q => if q = p then { g p with visited := true } else g q

/-! ### The seeded random generator (`createSeededRandom`) -/

/-- One update of the linear congruential generator:
`state = (state * 1664525 + 1013904223) >>> 0`. -/
def lcgNext (state : ℕ) : ℕ :=
  (state * 1664525 + 1013904223) % 2 ^ 32

/-- The internal 32-bit state of the generator returned by `createSeededRandom seed`,
after `k` calls: state `0` is `seed >>> 0`, and each call applies `lcgNext`. -/
def createSeededRandom (seed : ℕ) : ℕ → ℕ
  | 0 => seed % 2 ^ 32
  | k + 1 => lcgNext (createSeededRandom seed k)

/-- The exact rational value `state / 2 ** 32` returned by the `(k+1)`-st call of the
generator (`k = 0` is the first call). -/
def rndOut (seed k : ℕ) : ℚ :=
  (createSeededRandom seed (k + 1) : ℚ) / 2 ^ 32

/-! ### Grid creation and carving (`createGrid`, `carveMaze`) -/

/-- `createGrid`: every cell has all four walls and is unvisited.  (The source
allocates a `rows × cols` array; the embedding is the total function giving each
coordinate that initial cell.) -/
def createGrid : Grid :=
  fun _ => ⟨false, ⟨true, true, true, true⟩⟩

/-- One row of the `dirs` table of `carveMaze`. -/
structure DirEntry where
  dx : ℤ
  dy : ℤ
  wall : Side
  opp : Side
deriving DecidableEq, Repr

/-- The `dirs` table of `carveMaze`, in source order. -/
def dirs : List DirEntry :=
  [⟨0, -1, .top, .bottom⟩, ⟨1, 0, .right, .left⟩, ⟨0, 1, .bottom, .top⟩,
    ⟨-1, 0, .left, .right⟩]

/-- `neighborsUnvisited x y`: the direction entries whose target `(nx, ny)` is in
bounds and not yet visited, paired with that target, in `dirs` order. -/
def neighborsUnvisited (cols rows : ℕ) (g : Grid) (x y : ℤ) : List (DirEntry × ℤ × ℤ) :=
  (dirs.map (fun d => (d, x + d.dx, y + d.dy))).filter
    (fun n => decide (0 ≤ n.2.1) && decide (n.2.1 < (cols : ℤ)) && decide (0 ≤ n.2.2) &&
      decide (n.2.2 < (rows : ℤ)) && !(g (n.2.1, n.2.2)).visited)

/-- The state of the carving loop: the grid, the current LCG state, and the explicit
stack (head = top of stack). -/
structure CarveState where
  grid : Grid
  rng : ℕ
  stack : List (ℤ × ℤ)

/-- One iteration of the `while (stack.length)` loop of `carveMaze`.  On an empty
stack it is the identity (the loop has exited).  Otherwise it inspects the top of the
stack; if there are unvisited in-bounds neighbours it draws one with
`Math.floor(rnd() * unv.length)` (exactly `state * len / 2 ^ 32`), opens the shared
wall on both cells, marks the neighbour visited and pushes it; otherwise it pops. -/
def stepCarve (cols rows : ℕ) (s : CarveState) : CarveState :=
  match s.stack with
  | [] => s
  | cur :: rest =>
    let unv := neighborsUnvisited cols rows s.grid cur.1 cur.2
    if unv.isEmpty then { grid := s.grid, rng := s.rng, stack := rest }
    else
      let st := lcgNext s.rng
      let idx := st * unv.length / 2 ^ 32
      let n := unv.getD idx ⟨⟨0, 0, .top, .bottom⟩, 0, 0⟩
      let g1 := setWall s.grid cur n.1.wall false
      let g2 := setWall g1 n.2 n.1.opp false
      let g3 := setVisited g2 n.2
      { grid := g3, rng := st, stack := n.2 :: cur :: rest }

/-- `stepN n s` runs `n` iterations of the loop from state `s`. -/
def stepN (cols rows : ℕ) : ℕ → CarveState → CarveState
  | 0, s => s
  | n + 1, s => stepN cols rows n (stepCarve cols rows s)

/-- The loop state just before the `while` loop of `carveMaze`: fresh grid with
`(0,0)` marked visited, a fresh generator, and the stack `[{x:0, y:0}]`. -/
def initState (seed : ℕ) : CarveState :=
  { grid := setVisited createGrid (0, 0), rng := seed % 2 ^ 32, stack := [(0, 0)] }

/-- An iteration count after which the loop is guaranteed to have finished
(each iteration either visits a new cell and pushes, or pops). -/
def carveSteps (cols rows : ℕ) : ℕ :=
  2 * (cols * rows)

/-- The grid after the `while` loop of `carveMaze`, before entry/exit carving. -/
def carvedGrid (cols rows seed : ℕ) : Grid :=
  (stepN cols rows (carveSteps cols rows) (initState seed)).grid

/-- An `entry`/`exit` option object: any of the fields may be missing (`null` or
absent). -/
structure EPoint where
  x : Option ℤ
  y : Option ℤ
  side : Option Side
deriving DecidableEq, Repr

/-- A fully resolved entry/exit point. -/
structure ResolvedPoint where
  x : ℤ
  y : ℤ
  side : Side
deriving DecidableEq, Repr

/-- Resolution of the entry point: `entry || {x:0, y:0, side:"top"}` followed by the
per-field fallbacks `ent.x ?? 0`, `ent.y ?? 0`, `ent.side || "top"`. -/
def resolveEntry (entry : Option EPoint) : ResolvedPoint :=
  let ent := entry.getD ⟨some 0, some 0, some .top⟩
  ⟨ent.x.getD 0, ent.y.getD 0, ent.side.getD .top⟩

/-- Resolution of the exit point: `exit || {x:cols-1, y:rows-1, side:"bottom"}`
followed by the per-field fallbacks `ex.x ?? cols-1`, `ex.y ?? rows-1`,
`ex.side || "bottom"`. -/
def resolveExit (cols rows : ℕ) (ex : Option EPoint) : ResolvedPoint :=
  let e := ex.getD ⟨some ((cols : ℤ) - 1), some ((rows : ℤ) - 1), some .bottom⟩
  ⟨e.x.getD ((cols : ℤ) - 1), e.y.getD ((rows : ℤ) - 1), e.side.getD .bottom⟩

/-- The argument object of `carveMaze({cols, rows, seed, entry, exit})`. -/
structure CarveArgs where
  cols : ℕ
  rows : ℕ
  seed : ℕ
  entry : Option EPoint
  exit : Option EPoint

/-- `carveMaze`: run the carving loop, then carve the resolved entry wall and then
the resolved exit wall (each clears a single flag on the named cell). -/
def carveMaze (a : CarveArgs) : Grid :=
  let g := carvedGrid a.cols a.rows a.seed
  let ef := resolveEntry a.entry
  let xf := resolveExit a.cols a.rows a.exit
  setWall (setWall g (ef.x, ef.y) ef.side false) (xf.x, xf.y) xf.side false

/-! ### Bounds, adjacency, reachability, and edge counting -/

/-- `p` is an in-bounds coordinate, the condition checked by `neighborsUnvisited`. -/
def inB (cols rows : ℕ) (p : ℤ × ℤ) : Prop :=
  0 ≤ p.1 ∧ p.1 < (cols : ℤ) ∧ 0 ≤ p.2 ∧ p.2 < (rows : ℤ)

instance (cols rows : ℕ) : DecidablePred (inB cols rows) := fun p => by
  unfold inB; infer_instance

/-- The finite set of in-bounds coordinates. -/
def cells (cols rows : ℕ) : Finset (ℤ × ℤ) :=
  Finset.Icc 0 ((cols : ℤ) - 1) ×ˢ Finset.Icc 0 ((rows : ℤ) - 1)

/-- Wall flag of cell `p` on side `s`. -/
def wallToward (g : Grid) (p : ℤ × ℤ) (s : Side) : Bool :=
  wallAt (g p).walls s

/-- The shared wall between `p` and the adjacent cell `q` is cleared on both sides. -/
def openBetween (g : Grid) (p q : ℤ × ℤ) : Prop :=
  ∃ s : Side, q = shift p s ∧ wallToward g p s = false ∧ wallToward g q (oppSide s) = false

/-- Open adjacency between two in-bounds cells. -/
def openAdj (cols rows : ℕ) (g : Grid) (p q : ℤ × ℤ) : Prop :=
  inB cols rows p ∧ inB cols rows q ∧ openBetween g p q

/-- Reachability through open walls. -/
inductive Reach (cols rows : ℕ) (g : Grid) : ℤ × ℤ → ℤ × ℤ → Prop where
  | refl (p : ℤ × ℤ) : Reach cols rows g p p
  | step {p q r : ℤ × ℤ} : Reach cols rows g p q → openAdj cols rows g q r →
      Reach cols rows g p r

/-- Canonical record of one open adjacency: `(p, true)` stands for the pair
`{p, p + (1,0)}` (shared right/left wall open on both sides), `(p, false)` for
`{p, p + (0,1)}` (shared bottom/top wall open on both sides). -/
def edgeRecOpen (cols rows : ℕ) (g : Grid) : (ℤ × ℤ) × Bool → Bool
  | (p, true) => decide (p.1 + 1 < (cols : ℤ)) && !(g p).walls.right &&
      !(g (p.1 + 1, p.2)).walls.left
  | (p, false) => decide (p.2 + 1 < (rows : ℤ)) && !(g p).walls.bottom &&
      !(g (p.1, p.2 + 1)).walls.top

/-- The set of open adjacencies of the grid, one canonical record each. -/
def openEdges (cols rows : ℕ) (g : Grid) : Finset ((ℤ × ℤ) × Bool) :=
  ((cells cols rows) ×ˢ (Finset.univ : Finset Bool)).filter
    (fun t => edgeRecOpen cols rows g t = true)

/-- The set of visited in-bounds cells. -/
def visitedFinset (cols rows : ℕ) (g : Grid) : Finset (ℤ × ℤ) :=
  (cells cols rows).filter (fun p => (g p).visited = true)

/-- The open-adjacency graph of a grid (vertices are all coordinates; only in-bounds
cells ever have edges). -/
def openGraph (cols rows : ℕ) (g : Grid) : SimpleGraph (ℤ × ℤ) where
  Adj p q := openAdj cols rows g p q ∧ p ≠ q
  symm := by
    rintro p q ⟨⟨hp, hq, s, hs, h1, h2⟩, hne⟩
    refine ⟨⟨hq, hp, oppSide s, ?_, h2, ?_⟩, hne.symm⟩
    · cases s <;> simp only [shift, sideDelta, oppSide] at hs ⊢ <;>
        · obtain ⟨h1', h2'⟩ := Prod.mk.injEq .. ▸ hs
          refine Prod.ext ?_ ?_ <;> simp_all <;> omega
    · have : oppSide (oppSide s) = s := by cases s <;> rfl
      rw [this]; exact h1
  loopless := by rintro p ⟨-, h⟩; exact h rfl

/-- The canonical `openEdges` record of the shared wall between `cur` and
`shift cur w`: a horizontal edge is recorded at its left cell, a vertical edge at its
upper cell. -/
def canonRec (cur : ℤ × ℤ) : Side → (ℤ × ℤ) × Bool
  | .right => (cur, true)
  | .left => (shift cur .left, true)
  | .bottom => (cur, false)
  | .top => (shift cur .top, false)

/-- The grid mutation of one push iteration (source lines: clear the current cell's
wall toward the neighbour, clear the neighbour's opposite wall, mark the neighbour
visited). -/
def pushGrid (g : Grid) (cur np : ℤ × ℤ) (w : Side) : Grid :=
  setVisited (setWall (setWall g cur w false) np (oppSide w) false) np

/-- The second cell of the adjacency denoted by a canonical `openEdges` record. -/
def recTarget (p : ℤ × ℤ) (d : Bool) : ℤ × ℤ :=
  if d then (p.1 + 1, p.2) else (p.1, p.2 + 1)

/-- Number of in-bounds cells not yet visited. -/
def unvisitedCount (cols rows : ℕ) (g : Grid) : ℕ :=
  ((cells cols rows).filter (fun p => (g p).visited = false)).card

/-- Termination measure of the carving loop: each iteration either visits a fresh
cell and pushes (the first summand drops by 2, the second grows by 1) or pops. -/
def carveMeasure (cols rows : ℕ) (s : CarveState) : ℕ :=
  2 * unvisitedCount cols rows s.grid + s.stack.length

/-- The loop invariant of the carving loop. -/
structure Inv (cols rows : ℕ) (s : CarveState) : Prop where
  origin : (s.grid (0, 0)).visited = true
  stackB : ∀ p ∈ s.stack, inB cols rows p ∧ (s.grid p).visited = true
  openVis : ∀ p q, inB cols rows p → inB cols rows q → openBetween s.grid p q →
      (s.grid p).visited = true ∧ (s.grid q).visited = true
  count : (openEdges cols rows s.grid).card + 1 = (visitedFinset cols rows s.grid).card
  reach : ∀ p, inB cols rows p → (s.grid p).visited = true →
      Reach cols rows s.grid (0, 0) p
  closed : ∀ p, inB cols rows p → (s.grid p).visited = true → p ∉ s.stack →
      ∀ sd : Side, inB cols rows (shift p sd) → (s.grid (shift p sd)).visited = true
  wsym : ∀ p sd, wallToward s.grid p sd = wallToward s.grid (shift p sd) (oppSide sd)
  acyclic : (openGraph cols rows s.grid).IsAcyclic

/-! ### The rendering pass (`draw`) -/

/-- One `ctx.fillRect(x, y, w, h)` call together with the fill colour in effect. -/
structure FillRect where
  color : String
  x : ℤ
  y : ℤ
  w : ℤ
  h : ℤ
deriving DecidableEq, Repr

/-- The wall rectangles emitted for cell `(x, y)` by the drawing loop, in source
order: top wall, left wall, then the right wall only in the last column and the
bottom wall only in the last row. -/
def cellRects (wallColor : String) (cols rows : ℕ) (cell : ℚ) (t : ℤ) (g : Grid)
    (x y : ℕ) : List FillRect :=
  let wls := (g ((x : ℤ), (y : ℤ))).walls
  let px := ⌊(x : ℚ) * cell⌋
  let py := ⌊(y : ℚ) * cell⌋
  let cellSize := ⌈cell⌉
  (if wls.top = true then [⟨wallColor, px, py, cellSize, t⟩] else []) ++
    (if wls.left = true then [⟨wallColor, px, py, t, cellSize⟩] else []) ++
    (if x = cols - 1 ∧ wls.right = true then
      [⟨wallColor, px + cellSize - t, py, t, cellSize⟩] else []) ++
    (if y = rows - 1 ∧ wls.bottom = true then
      [⟨wallColor, px, py + cellSize - t, cellSize, t⟩] else [])

/-- The sequence of fill operations of one `draw()` pass, given the measured square
size `cssSize` (an integer, as `measureSquare` floors it) and the `lineWidthRatio`
option (called `lineWidthFrac` here).  First the background fill, then the wall
rectangles, rows outer, columns inner. -/
def draw (g : Grid) (cols rows : ℕ) (cssSize : ℤ) (lineWidthFrac : ℚ)
    (wallColor bgColor : String) : List FillRect :=
  let cell : ℚ := (cssSize : ℚ) / cols
  let t : ℤ := max 1 ⌈cell * lineWidthFrac⌉
  ⟨bgColor, 0, 0, cssSize, cssSize⟩ ::
    ((List.range rows).flatMap fun y =>
      (List.range cols).flatMap fun x => cellRects wallColor cols rows cell t g x y)

/-! ### The widget controller (`createMazeWidget` state, `setOptions`,
`regenerate`, `redraw`) -/

/-- The configuration record `opts` (the `lineWidthRatio` option is called
`lineWidthFrac` here). -/
structure Options where
  cols : ℕ
  rows : ℕ
  wallColor : String
  bgColor : String
  lineWidthFrac : ℚ
  seed : ℕ
  entry : Option EPoint
  exit : Option EPoint
  squareBy : String
  padding : ℤ
deriving DecidableEq

/-- The `defaults` object of the source. -/
def defaults : Options :=
  { cols := 5, rows := 5, wallColor := "#ffffff", bgColor := "#000000",
    lineWidthFrac := 1 / 4, seed := 983811,
    entry := some ⟨some 0, some 0, some .top⟩,
    exit := some ⟨none, none, some .bottom⟩,
    squareBy := "width", padding := 0 }

/-- A partial options object: `none` means the key is absent. -/
structure PartialOptions where
  cols : Option ℕ := none
  rows : Option ℕ := none
  wallColor : Option String := none
  bgColor : Option String := none
  lineWidthFrac : Option ℚ := none
  seed : Option ℕ := none
  entry : Option (Option EPoint) := none
  exit : Option (Option EPoint) := none
  squareBy : Option String := none
  padding : Option ℤ := none

/-- `Object.assign(o, p)` / `{ ...o, ...p }`: every key present in `p` overrides. -/
def mergeInto (o : Options) (p : PartialOptions) : Options :=
  { cols := p.cols.getD o.cols, rows := p.rows.getD o.rows,
    wallColor := p.wallColor.getD o.wallColor, bgColor := p.bgColor.getD o.bgColor,
    lineWidthFrac := p.lineWidthFrac.getD o.lineWidthFrac, seed := p.seed.getD o.seed,
    entry := p.entry.getD o.entry, exit := p.exit.getD o.exit,
    squareBy := p.squareBy.getD o.squareBy, padding := p.padding.getD o.padding }

/-- The mutable state owned by the widget: the configuration and the current grid. -/
structure Widget where
  opts : Options
  grid : Grid

/-- The carving arguments the controller passes to `carveMaze`. -/
def argsOf (o : Options) : CarveArgs :=
  ⟨o.cols, o.rows, o.seed, o.entry, o.exit⟩

/-- Widget construction: merge the caller's options over the defaults, carve once. -/
def createMazeWidget (options : PartialOptions) : Widget :=
  let o := mergeInto defaults options
  { opts := o, grid := carveMaze (argsOf o) }

/-- `regenerate(newOptions)`: merge into `opts`, re-carve, replace the grid. -/
def regenerate (wg : Widget) (newOptions : PartialOptions) : Widget :=
  let o := mergeInto wg.opts newOptions
  { opts := o, grid := carveMaze (argsOf o) }

/-- `setOptions(patch)`: merge into `opts` and redraw; the grid is not touched. -/
def setOptions (wg : Widget) (patch : PartialOptions) : Widget :=
  { opts := mergeInto wg.opts patch, grid := wg.grid }

/-- `redraw()` only re-runs `draw()`; the widget state is unchanged. -/
def redraw (wg : Widget) : Widget :=
  wg

/-- The fill operations `draw()` produces for widget state `wg` at measured size
`cssSize`: it reads `opts.cols`, `opts.rows`, `opts.lineWidthRatio`,
`opts.wallColor`, `opts.bgColor` and the stored grid — never `opts.entry` or
`opts.exit`. -/
def drawWidget (wg : Widget) (cssSize : ℤ) : List FillRect :=
  draw wg.grid wg.opts.cols wg.opts.rows cssSize wg.opts.lineWidthFrac
    wg.opts.wallColor wg.opts.bgColor

/-! ### `getState()` and object identity

`getState()` returns `{ options: { ...opts }, grid: JSON.parse(JSON.stringify(grid)),
canvas, mount }`.  The grid round-trips through JSON, so the returned grid is an
independent deep copy of plain data.  `{ ...opts }` copies the top-level fields only;
the two nested mutable objects inside `opts` are the `entry` and `exit` records, and
the spread copies their *references*.  To express object identity in the embedding,
the `entry`/`exit` objects live in an explicit heap addressed by references. -/

/-- The heap holding the mutable `entry`/`exit` option objects. -/
abbrev Heap := ℕ → EPoint

/-- The `opts` record with `entry`/`exit` as references into the heap; the other
fields are plain values. -/
structure OptionsRefs where
  cols : ℕ
  rows : ℕ
  wallColor : String
  bgColor : String
  lineWidthFrac : ℚ
  seed : ℕ
  entryRef : ℕ
  exitRef : ℕ
  squareBy : String
  padding : ℤ
deriving DecidableEq

/-- Widget state at the reference level. -/
structure WidgetRefs where
  opts : OptionsRefs
  grid : Grid

/-- The `{configuration, grid}` part of `getState()`: a field-by-field (shallow)
copy of `opts` — which copies the `entry`/`exit` references unchanged — and a deep
copy of the grid's plain data. -/
def getState (wg : WidgetRefs) : OptionsRefs × Grid :=
  (wg.opts, fun p => wg.grid p)

/-- Assignment through a reference (e.g. `snapshot.options.entry.x = 3`): mutates
the pointed-to object in the heap. -/
def heapSet (h : Heap) (r : ℕ) (v : EPoint) : Heap :=
  fun r' => if r' = r then v else h r'

/-- `draw()` at the reference level: the heap is irrelevant because the drawing pass
never dereferences `entryRef`/`exitRef`. -/
def drawWidgetRefs (wg : WidgetRefs) (heap : Heap) (cssSize : ℤ) : List FillRect :=
  draw wg.grid wg.opts.cols wg.opts.rows cssSize wg.opts.lineWidthFrac
    wg.opts.wallColor wg.opts.bgColor

/-- A concrete heap for the snapshot-isolation counterexample: reference 0 holds the
default entry object, reference 1 the default exit object. -/
def heap0 : Heap :=
  fun r => if r = 1 then ⟨none, none, some .bottom⟩ else ⟨some 0, some 0, some .top⟩

/-- A concrete widget state (default configuration) for the snapshot-isolation
counterexample. -/
def widget0 : WidgetRefs :=
  { opts := { cols := 5, rows := 5, wallColor := "#ffffff", bgColor := "#000000",
              lineWidthFrac := 1 / 4, seed := 983811, entryRef := 0, exitRef := 1,
              squareBy := "width", padding := 0 },
    grid := carveMaze ⟨5, 5, 983811, some ⟨some 0, some 0, some .top⟩,
      some ⟨none, none, some .bottom⟩⟩ }

/-! ## Basic lemmas about sides, shifts and the cell setters -/

theorem oppSide_oppSide (s : Side) : oppSide (oppSide s) = s := by
  cases s <;> rfl

theorem shift_shift_opp (p : ℤ × ℤ) (s : Side) : shift (shift p s) (oppSide s) = p := by
  cases s <;> simp [shift, sideDelta, oppSide]

theorem shift_ne (p : ℤ × ℤ) (s : Side) : shift p s ≠ p := by
  cases s <;> simp [shift, sideDelta, Prod.ext_iff]

theorem side_eq_of_shift_eq {p : ℤ × ℤ} {s s' : Side} (h : shift p s = shift p s') :
    s = s' := by
  cases s <;> cases s' <;> first
    | rfl
    | (exfalso; simp only [shift, sideDelta, Prod.ext_iff] at h; omega)

theorem oppSide_inj {s s' : Side} (h : oppSide s = oppSide s') : s = s' := by
  cases s <;> cases s' <;> simp_all [oppSide]

theorem openBetween_symm {g : Grid} {p q : ℤ × ℤ} (h : openBetween g p q) :
    openBetween g q p := by
  obtain ⟨s, hs, h1, h2⟩ := h
  refine ⟨oppSide s, ?_, h2, ?_⟩
  · rw [hs, shift_shift_opp]
  · rw [oppSide_oppSide]; exact h1

theorem wallAt_setSide (w : WallSet) (s s' : Side) (b : Bool) :
    wallAt (setSide w s b) s' = if s' = s then b else wallAt w s' := by
  cases s <;> cases s' <;> simp [setSide, wallAt]

theorem visited_setWall (g : Grid) (p : ℤ × ℤ) (s : Side) (b : Bool) (q : ℤ × ℤ) :
    ((setWall g p s b) q).visited = (g q).visited := by
  by_cases h : q = p <;> simp [setWall, h]

theorem walls_setVisited (g : Grid) (p q : ℤ × ℤ) :
    ((setVisited g p) q).walls = (g q).walls := by
  by_cases h : q = p <;> simp [setVisited, h]

theorem visited_setVisited (g : Grid) (p q : ℤ × ℤ) :
    ((setVisited g p) q).visited = true ↔ q = p ∨ (g q).visited = true := by
  by_cases h : q = p <;> simp [setVisited, h]

theorem wallToward_setWall (g : Grid) (p : ℤ × ℤ) (s : Side) (b : Bool) (q : ℤ × ℤ)
    (s' : Side) :
    wallToward (setWall g p s b) q s' =
      if q = p ∧ s' = s then b else wallToward g q s' := by
  by_cases h : q = p
  · subst h
    simp only [wallToward, setWall, if_pos rfl, true_and]
    exact wallAt_setSide _ _ _ _
  · simp [wallToward, setWall, h]

theorem wallToward_setVisited (g : Grid) (p q : ℤ × ℤ) (s' : Side) :
    wallToward (setVisited g p) q s' = wallToward g q s' := by
  simp [wallToward, walls_setVisited]

/-! ## Lemmas about `neighborsUnvisited` and one loop iteration -/

theorem dirs_spec : ∀ d ∈ dirs, (d.dx, d.dy) = sideDelta d.wall ∧ d.opp = oppSide d.wall := by
  decide

theorem mem_neighborsUnvisited {cols rows : ℕ} {g : Grid} {x y : ℤ}
    {t : DirEntry × ℤ × ℤ} (h : t ∈ neighborsUnvisited cols rows g x y) :
    t.2 = shift (x, y) t.1.wall ∧ t.1.opp = oppSide t.1.wall ∧
      inB cols rows t.2 ∧ (g t.2).visited = false := by
  unfold neighborsUnvisited at h
  rw [List.mem_filter] at h
  obtain ⟨hmem, hcond⟩ := h
  rw [List.mem_map] at hmem
  obtain ⟨d, hd, rfl⟩ := hmem
  obtain ⟨hδ, hopp⟩ := dirs_spec d hd
  simp only [Bool.and_eq_true, decide_eq_true_eq, Bool.not_eq_true'] at hcond
  refine ⟨?_, hopp, ⟨hcond.1.1.1.1, hcond.1.1.1.2, hcond.1.1.2, hcond.1.2⟩, hcond.2⟩
  simp [shift, ← hδ]

theorem neighborsUnvisited_nil {cols rows : ℕ} {g : Grid} {x y : ℤ}
    (h : neighborsUnvisited cols rows g x y = []) (s : Side)
    (hb : inB cols rows (shift (x, y) s)) : (g (shift (x, y) s)).visited = true := by
  have hcover : ∃ d ∈ dirs, d.wall = s := by cases s <;> decide
  obtain ⟨d, hd, hw⟩ := hcover
  have hδ := (dirs_spec d hd).1
  have hsh : shift (x, y) s = (x + d.dx, y + d.dy) := by
    simp [shift, ← hw, ← hδ]
  unfold neighborsUnvisited at h
  rw [List.filter_eq_nil_iff] at h
  have hpred := h (d, x + d.dx, y + d.dy) (List.mem_map.mpr ⟨d, hd, rfl⟩)
  rw [hsh] at hb ⊢
  obtain ⟨h1, h2, h3, h4⟩ := hb
  by_contra hvis
  have hvis' : (g (x + d.dx, y + d.dy)).visited = false := by
    cases hcase : (g (x + d.dx, y + d.dy)).visited
    · rfl
    · exact absurd hcase hvis
  exact hpred (by simp [hvis', h1, h2, h3, h4])

theorem getD_mem {α : Type} (l : List α) (i : ℕ) (d : α) (h : i < l.length) :
    l.getD i d ∈ l := by
  induction l generalizing i with
  | nil => simp at h
  | cons a tl ih =>
    cases i with
    | zero => simp
    | succ n =>
      simp only [List.getD_cons_succ]
      exact List.mem_cons_of_mem a (ih n (by simpa using h))

theorem idx_lt_length {α : Type} (l : List α) (r : ℕ) (h : l ≠ []) :
    lcgNext r * l.length / 2 ^ 32 < l.length := by
  have h1 : lcgNext r < 2 ^ 32 := Nat.mod_lt _ (by norm_num)
  have h2 : 0 < l.length := List.length_pos.mpr h
  exact Nat.div_lt_of_lt_mul ((Nat.mul_lt_mul_right h2).mpr h1)

theorem stepCarve_nil {cols rows : ℕ} {s : CarveState} (h : s.stack = []) :
    stepCarve cols rows s = s := by
  obtain ⟨g, r, stk⟩ := s
  simp only at h
  subst h
  rfl

theorem stepCarve_pop {cols rows : ℕ} {s : CarveState} {cur : ℤ × ℤ}
    {rest : List (ℤ × ℤ)} (hst : s.stack = cur :: rest)
    (hemp : neighborsUnvisited cols rows s.grid cur.1 cur.2 = []) :
    stepCarve cols rows s = { grid := s.grid, rng := s.rng, stack := rest } := by
  obtain ⟨g, r, stk⟩ := s
  simp only at hst hemp ⊢
  subst hst
  simp [stepCarve, hemp]

theorem stepCarve_push {cols rows : ℕ} {s : CarveState} {cur : ℤ × ℤ}
    {rest : List (ℤ × ℤ)} (hst : s.stack = cur :: rest)
    (hne : neighborsUnvisited cols rows s.grid cur.1 cur.2 ≠ []) :
    ∃ (w : Side) (np : ℤ × ℤ), np = shift cur w ∧ inB cols rows np ∧
      (s.grid np).visited = false ∧
      stepCarve cols rows s =
        { grid := pushGrid s.grid cur np w,
          rng := lcgNext s.rng,
          stack := np :: cur :: rest } := by
  obtain ⟨g, r, stk⟩ := s
  simp only at hst hne ⊢
  subst hst
  have hidx := idx_lt_length (neighborsUnvisited cols rows g cur.1 cur.2) r hne
  have hmem : (neighborsUnvisited cols rows g cur.1 cur.2).getD
      (lcgNext r * (neighborsUnvisited cols rows g cur.1 cur.2).length / 2 ^ 32)
      ⟨⟨0, 0, .top, .bottom⟩, 0, 0⟩ ∈ neighborsUnvisited cols rows g cur.1 cur.2 :=
    getD_mem _ _ _ hidx
  obtain ⟨hsh, hopp, hb, hv⟩ := mem_neighborsUnvisited hmem
  refine ⟨((neighborsUnvisited cols rows g cur.1 cur.2).getD
      (lcgNext r * (neighborsUnvisited cols rows g cur.1 cur.2).length / 2 ^ 32)
      ⟨⟨0, 0, .top, .bottom⟩, 0, 0⟩).1.wall,
    ((neighborsUnvisited cols rows g cur.1 cur.2).getD
      (lcgNext r * (neighborsUnvisited cols rows g cur.1 cur.2).length / 2 ^ 32)
      ⟨⟨0, 0, .top, .bottom⟩, 0, 0⟩).2, by simpa using hsh, hb, hv, ?_⟩
  simp only [stepCarve]
  rw [if_neg (by simpa [List.isEmpty_iff] using hne)]
  rw [hopp]
  rfl

/-! ## Counting and termination -/

theorem mem_cells {cols rows : ℕ} {p : ℤ × ℤ} :
    p ∈ cells cols rows ↔ inB cols rows p := by
  obtain ⟨a, b⟩ := p
  simp only [cells, inB, Finset.mem_product, Finset.mem_Icc]
  omega

theorem cells_card (cols rows : ℕ) : (cells cols rows).card = cols * rows := by
  rw [cells, Finset.card_product, Int.card_Icc, Int.card_Icc]
  simp only [sub_zero]
  rw [sub_add_cancel, sub_add_cancel, Int.toNat_natCast, Int.toNat_natCast]

/-- After the push-branch update, exactly the fresh cell leaves the unvisited set. -/
theorem unvisitedCount_push {cols rows : ℕ} {g : Grid} {cur np : ℤ × ℤ} {w : Side}
    (hb : inB cols rows np) (hv : (g np).visited = false) :
    unvisitedCount cols rows (pushGrid g cur np w) + 1 = unvisitedCount cols rows g := by
  set g3 := pushGrid g cur np w with hg3
  have hvis : ∀ q, (g3 q).visited = true ↔ q = np ∨ (g q).visited = true := by
    intro q
    rw [hg3, pushGrid, visited_setVisited, visited_setWall, visited_setWall]
  have hset : (cells cols rows).filter (fun p => (g3 p).visited = false) =
      ((cells cols rows).filter (fun p => (g p).visited = false)).erase np := by
    ext q
    simp only [Finset.mem_filter, Finset.mem_erase]
    constructor
    · rintro ⟨hc, hq⟩
      have hq' : ¬((g3 q).visited = true) := by simp [hq]
      rw [hvis] at hq'
      push_neg at hq'
      refine ⟨hq'.1, hc, ?_⟩
      cases hcase : (g q).visited
      · rfl
      · exact absurd hcase hq'.2
    · rintro ⟨hne, hc, hq⟩
      refine ⟨hc, ?_⟩
      have : ¬((g3 q).visited = true) := by
        rw [hvis]
        push_neg
        exact ⟨hne, by simp [hq]⟩
      cases hcase : (g3 q).visited
      · rfl
      · exact absurd hcase this
  unfold unvisitedCount
  rw [hset]
  exact Finset.card_erase_add_one (by
    rw [Finset.mem_filter]
    exact ⟨mem_cells.mpr hb, hv⟩)

theorem stepCarve_measure {cols rows : ℕ} {s : CarveState} (h : s.stack ≠ []) :
    carveMeasure cols rows (stepCarve cols rows s) < carveMeasure cols rows s := by
  obtain ⟨cur, rest, hst⟩ : ∃ cur rest, s.stack = cur :: rest := by
    cases hs : s.stack with
    | nil => exact absurd hs h
    | cons a b => exact ⟨a, b, rfl⟩
  by_cases hemp : neighborsUnvisited cols rows s.grid cur.1 cur.2 = []
  · rw [stepCarve_pop hst hemp]
    simp [carveMeasure, hst]
  · obtain ⟨w, np, hnp, hb, hv, heq⟩ := stepCarve_push hst hemp
    rw [heq]
    have hcount := @unvisitedCount_push cols rows s.grid cur np w hb hv
    simp only [carveMeasure, hst, List.length_cons]
    omega

theorem stepN_stack_nil {cols rows : ℕ} {s : CarveState} (h : s.stack = []) :
    ∀ n, (stepN cols rows n s).stack = [] := by
  intro n
  induction n generalizing s with
  | zero => exact h
  | succ n ih =>
    show (stepN cols rows n (stepCarve cols rows s)).stack = []
    rw [stepCarve_nil h]
    exact ih h

theorem stack_empty_of_measure_le {cols rows : ℕ} :
    ∀ (n : ℕ) (s : CarveState), carveMeasure cols rows s ≤ n →
      (stepN cols rows n s).stack = [] := by
  intro n
  induction n with
  | zero =>
    intro s h
    have : s.stack.length = 0 := by
      have := h
      unfold carveMeasure at this
      omega
    exact List.length_eq_zero.mp this
  | succ n ih =>
    intro s h
    by_cases hs : s.stack = []
    · exact stepN_stack_nil hs (n + 1)
    · have hlt := @stepCarve_measure cols rows s hs
      exact ih (stepCarve cols rows s) (by omega)

theorem stepN_succ_out (cols rows n : ℕ) (s : CarveState) :
    stepN cols rows (n + 1) s = stepCarve cols rows (stepN cols rows n s) := by
  induction n generalizing s with
  | zero => rfl
  | succ n ih =>
    show stepN cols rows (n + 1) (stepCarve cols rows s) = _
    rw [ih (stepCarve cols rows s)]
    rfl

/-- Initially only `(0,0)` is visited, so the measure is `2·(cols·rows − 1) + 1`. -/
theorem measure_init {cols rows seed : ℕ} (hc : 0 < cols) (hr : 0 < rows) :
    carveMeasure cols rows (initState seed) ≤ carveSteps cols rows := by
  have hmem : ((0 : ℤ), (0 : ℤ)) ∈ cells cols rows := by
    rw [mem_cells]
    refine ⟨le_refl 0, ?_, le_refl 0, ?_⟩
    · show (0 : ℤ) < (cols : ℤ)
      exact_mod_cast hc
    · show (0 : ℤ) < (rows : ℤ)
      exact_mod_cast hr
  have hset : (cells cols rows).filter
        (fun p => ((initState seed).grid p).visited = false) =
      (cells cols rows).erase (0, 0) := by
    ext q
    simp only [Finset.mem_filter, Finset.mem_erase, initState]
    constructor
    · rintro ⟨hc', hq⟩
      refine ⟨?_, hc'⟩
      intro hq0
      rw [hq0] at hq
      simp [setVisited] at hq
    · rintro ⟨hne, hc'⟩
      refine ⟨hc', ?_⟩
      simp only [setVisited, createGrid]
      rw [if_neg hne]
  have hcount : unvisitedCount cols rows (initState seed).grid + 1 = cols * rows := by
    unfold unvisitedCount
    rw [hset, ← cells_card cols rows]
    exact Finset.card_erase_add_one hmem
  have hpos : 0 < cols * rows := Nat.mul_pos hc hr
  unfold carveMeasure carveSteps
  simp only [initState, List.length_cons, List.length_nil] at hcount ⊢
  omega

/-! ## The push-branch grid update, characterised -/

theorem shift_top (p : ℤ × ℤ) : shift p .top = (p.1, p.2 - 1) := by
  simp [shift, sideDelta]; ring

theorem shift_right (p : ℤ × ℤ) : shift p .right = (p.1 + 1, p.2) := by
  simp [shift, sideDelta]

theorem shift_bottom (p : ℤ × ℤ) : shift p .bottom = (p.1, p.2 + 1) := by
  simp [shift, sideDelta]

theorem shift_left (p : ℤ × ℤ) : shift p .left = (p.1 - 1, p.2) := by
  simp [shift, sideDelta]; ring

theorem shift_left_inj {p q : ℤ × ℤ} {s : Side} (h : shift p s = shift q s) : p = q := by
  cases s <;>
    · simp only [shift, sideDelta, Prod.ext_iff] at h
      obtain ⟨h1, h2⟩ := h
      exact Prod.ext (by omega) (by omega)

theorem pushGrid_visited (g : Grid) (cur np : ℤ × ℤ) (w : Side) (q : ℤ × ℤ) :
    ((pushGrid g cur np w) q).visited = true ↔ q = np ∨ (g q).visited = true := by
  rw [pushGrid, visited_setVisited, visited_setWall, visited_setWall]

theorem pushGrid_wall (g : Grid) (cur np : ℤ × ℤ) (w : Side) (q : ℤ × ℤ) (sd : Side) :
    wallToward (pushGrid g cur np w) q sd =
      if (q = cur ∧ sd = w) ∨ (q = np ∧ sd = oppSide w) then false
      else wallToward g q sd := by
  rw [pushGrid, wallToward_setVisited, wallToward_setWall, wallToward_setWall]
  by_cases h1 : q = np ∧ sd = oppSide w
  · simp [h1]
  · by_cases h2 : q = cur ∧ sd = w
    · simp [h1, h2]
    · simp [h1, h2]

theorem pushGrid_wall_mono (g : Grid) (cur np : ℤ × ℤ) (w : Side) : ∀ (q : ℤ × ℤ)
    (sd : Side), wallToward g q sd = false →
      wallToward (pushGrid g cur np w) q sd = false := by
  intro q sd h
  rw [pushGrid_wall]
  split
  · rfl
  · exact h

theorem openBetween_mono {g g' : Grid}
    (hw : ∀ q sd, wallToward g q sd = false → wallToward g' q sd = false)
    {p q : ℤ × ℤ} (h : openBetween g p q) : openBetween g' p q := by
  obtain ⟨s, hs, h1, h2⟩ := h
  exact ⟨s, hs, hw _ _ h1, hw _ _ h2⟩

theorem reach_mono {cols rows : ℕ} {g g' : Grid}
    (hw : ∀ q sd, wallToward g q sd = false → wallToward g' q sd = false)
    {p q : ℤ × ℤ} (h : Reach cols rows g p q) : Reach cols rows g' p q := by
  induction h with
  | refl => exact .refl _
  | step h1 h2 ih => exact .step ih ⟨h2.1, h2.2.1, openBetween_mono hw h2.2.2⟩

theorem pushGrid_openBetween {g : Grid} {cur np : ℤ × ℤ} {w : Side}
    (hnp : np = shift cur w) {p q : ℤ × ℤ} :
    openBetween (pushGrid g cur np w) p q ↔
      openBetween g p q ∨ (p = cur ∧ q = np) ∨ (p = np ∧ q = cur) := by
  constructor
  · rintro ⟨s, hs, h1, h2⟩
    rw [pushGrid_wall] at h1 h2
    by_cases hc1 : (p = cur ∧ s = w) ∨ (p = np ∧ s = oppSide w)
    · rcases hc1 with ⟨hp, hsw⟩ | ⟨hp, hsw⟩
      · refine Or.inr (Or.inl ⟨hp, ?_⟩)
        rw [hs, hp, hsw, ← hnp]
      · refine Or.inr (Or.inr ⟨hp, ?_⟩)
        rw [hs, hp, hsw, hnp, shift_shift_opp]
    · rw [if_neg hc1] at h1
      by_cases hc2 : (q = cur ∧ oppSide s = w) ∨ (q = np ∧ oppSide s = oppSide w)
      · have hpq : p = shift q (oppSide s) := by
          rw [hs, shift_shift_opp]
        rcases hc2 with ⟨hq, hsw⟩ | ⟨hq, hsw⟩
        · have hsval : s = oppSide w := by rw [← oppSide_oppSide s, hsw]
          refine Or.inr (Or.inr ⟨?_, hq⟩)
          rw [hpq, hq, hsval, oppSide_oppSide, ← hnp]
        · have hsval : s = w := oppSide_inj hsw
          refine Or.inr (Or.inl ⟨?_, hq⟩)
          rw [hpq, hq, hsval, hnp, shift_shift_opp]
      · rw [if_neg hc2] at h2
        exact Or.inl ⟨s, hs, h1, h2⟩
  · intro h
    rcases h with h | ⟨hp, hq⟩ | ⟨hp, hq⟩
    · exact openBetween_mono (pushGrid_wall_mono g cur np w) h
    · subst hp; subst hq
      refine ⟨w, hnp, ?_, ?_⟩
      · rw [pushGrid_wall, if_pos (Or.inl ⟨rfl, rfl⟩)]
      · rw [pushGrid_wall, if_pos (Or.inr ⟨rfl, rfl⟩)]
    · subst hp; subst hq
      refine ⟨oppSide w, ?_, ?_, ?_⟩
      · rw [hnp, shift_shift_opp]
      · rw [pushGrid_wall, if_pos (Or.inr ⟨rfl, rfl⟩)]
      · rw [pushGrid_wall, if_pos (Or.inl ⟨rfl, oppSide_oppSide w⟩)]

theorem pushGrid_adj {cols rows : ℕ} {g : Grid} {cur np : ℤ × ℤ} {w : Side}
    (hnp : np = shift cur w) (hbc : inB cols rows cur) (hbn : inB cols rows np)
    (p q : ℤ × ℤ) :
    (openGraph cols rows (pushGrid g cur np w)).Adj p q ↔
      (openGraph cols rows g).Adj p q ∨ (p = cur ∧ q = np) ∨ (p = np ∧ q = cur) := by
  have hne : cur ≠ np := fun h => shift_ne cur w (by rw [← hnp, ← h])
  show (openAdj cols rows (pushGrid g cur np w) p q ∧ p ≠ q) ↔
      ((openAdj cols rows g p q ∧ p ≠ q) ∨ _ ∨ _)
  constructor
  · rintro ⟨⟨hp, hq, hob⟩, hpq⟩
    rcases (pushGrid_openBetween hnp).mp hob with h | h | h
    · exact Or.inl ⟨⟨hp, hq, h⟩, hpq⟩
    · exact Or.inr (Or.inl h)
    · exact Or.inr (Or.inr h)
  · rintro (⟨⟨hp, hq, hob⟩, hpq⟩ | ⟨hp, hq⟩ | ⟨hp, hq⟩)
    · exact ⟨⟨hp, hq, (pushGrid_openBetween hnp).mpr (Or.inl hob)⟩, hpq⟩
    · subst hp; subst hq
      exact ⟨⟨hbc, hbn, (pushGrid_openBetween hnp).mpr (Or.inr (Or.inl ⟨rfl, rfl⟩))⟩, hne⟩
    · subst hp; subst hq
      exact ⟨⟨hbn, hbc, (pushGrid_openBetween hnp).mpr (Or.inr (Or.inr ⟨rfl, rfl⟩))⟩,
        hne.symm⟩

/-! ## Open-edge records -/

theorem edgeRecOpen_true_iff {cols rows : ℕ} {g : Grid} {p : ℤ × ℤ} :
    edgeRecOpen cols rows g (p, true) = true ↔
      p.1 + 1 < (cols : ℤ) ∧ openBetween g p (p.1 + 1, p.2) := by
  constructor
  · intro h
    simp only [edgeRecOpen, Bool.and_eq_true, decide_eq_true_eq, Bool.not_eq_true'] at h
    exact ⟨h.1.1, .right, by rw [shift_right], h.1.2, h.2⟩
  · rintro ⟨hcol, s, hs, h1, h2⟩
    have hsr : Side.right = s := side_eq_of_shift_eq (by rw [shift_right]; exact hs)
    subst hsr
    simp only [edgeRecOpen, Bool.and_eq_true, decide_eq_true_eq, Bool.not_eq_true']
    exact ⟨⟨hcol, h1⟩, h2⟩

theorem edgeRecOpen_false_iff {cols rows : ℕ} {g : Grid} {p : ℤ × ℤ} :
    edgeRecOpen cols rows g (p, false) = true ↔
      p.2 + 1 < (rows : ℤ) ∧ openBetween g p (p.1, p.2 + 1) := by
  constructor
  · intro h
    simp only [edgeRecOpen, Bool.and_eq_true, decide_eq_true_eq, Bool.not_eq_true'] at h
    exact ⟨h.1.1, .bottom, by rw [shift_bottom], h.1.2, h.2⟩
  · rintro ⟨hrow, s, hs, h1, h2⟩
    have hsr : Side.bottom = s := side_eq_of_shift_eq (by rw [shift_bottom]; exact hs)
    subst hsr
    simp only [edgeRecOpen, Bool.and_eq_true, decide_eq_true_eq, Bool.not_eq_true']
    exact ⟨⟨hrow, h1⟩, h2⟩

theorem inB_right_iff {cols rows : ℕ} {p : ℤ × ℤ} (hp : inB cols rows p) :
    inB cols rows (p.1 + 1, p.2) ↔ p.1 + 1 < (cols : ℤ) := by
  obtain ⟨h1, h2, h3, h4⟩ := hp
  simp only [inB]
  constructor
  · rintro ⟨-, hb, -, -⟩; exact hb
  · intro hb; exact ⟨by omega, hb, h3, h4⟩

theorem inB_bottom_iff {cols rows : ℕ} {p : ℤ × ℤ} (hp : inB cols rows p) :
    inB cols rows (p.1, p.2 + 1) ↔ p.2 + 1 < (rows : ℤ) := by
  obtain ⟨h1, h2, h3, h4⟩ := hp
  simp only [inB]
  constructor
  · rintro ⟨-, -, -, hb⟩; exact hb
  · intro hb; exact ⟨h1, h2, by omega, hb⟩

theorem mem_openEdges_iff {cols rows : ℕ} {g : Grid} {p : ℤ × ℤ} {d : Bool} :
    (p, d) ∈ openEdges cols rows g ↔
      inB cols rows p ∧ inB cols rows (recTarget p d) ∧
        openBetween g p (recTarget p d) := by
  unfold openEdges
  rw [Finset.mem_filter, Finset.mem_product]
  simp only [Finset.mem_univ, and_true, mem_cells]
  cases d
  · rw [edgeRecOpen_false_iff]
    simp only [recTarget, if_neg (by simp : ¬ (false = true))]
    constructor
    · rintro ⟨hp, hb, hob⟩
      exact ⟨hp, (inB_bottom_iff hp).mpr hb, hob⟩
    · rintro ⟨hp, hb, hob⟩
      exact ⟨hp, (inB_bottom_iff hp).mp hb, hob⟩
  · rw [edgeRecOpen_true_iff]
    simp only [recTarget, if_pos rfl]
    constructor
    · rintro ⟨hp, hb, hob⟩
      exact ⟨hp, (inB_right_iff hp).mpr hb, hob⟩
    · rintro ⟨hp, hb, hob⟩
      exact ⟨hp, (inB_right_iff hp).mp hb, hob⟩

theorem pushGrid_visitedFinset {cols rows : ℕ} {g : Grid} {cur np : ℤ × ℤ} {w : Side}
    (hbn : inB cols rows np) :
    visitedFinset cols rows (pushGrid g cur np w) =
      insert np (visitedFinset cols rows g) := by
  ext q
  simp only [visitedFinset, Finset.mem_insert, Finset.mem_filter]
  constructor
  · rintro ⟨hcq, hq⟩
    rcases (pushGrid_visited g cur np w q).mp hq with h | h
    · exact Or.inl h
    · exact Or.inr ⟨hcq, h⟩
  · rintro (h | ⟨hcq, hq⟩)
    · refine ⟨by rw [h]; exact mem_cells.mpr hbn, (pushGrid_visited g cur np w q).mpr (Or.inl h)⟩
    · exact ⟨hcq, (pushGrid_visited g cur np w q).mpr (Or.inr hq)⟩

theorem canonRec_not_mem {cols rows : ℕ} {g : Grid} {cur np : ℤ × ℤ} {w : Side}
    (hnp : np = shift cur w) (hno : ¬ openBetween g cur np) :
    canonRec cur w ∉ openEdges cols rows g := by
  intro hmem
  cases w
  case top =>
    rw [show canonRec cur .top = (shift cur .top, false) from rfl, ← hnp] at hmem
    obtain ⟨-, -, hob⟩ := mem_openEdges_iff.mp hmem
    apply hno
    apply openBetween_symm
    have htgt : recTarget np false = cur := by
      rw [hnp, shift_top]
      simp only [recTarget, if_neg (by simp : ¬ (false = true))]
      exact Prod.ext rfl (by omega)
    rwa [htgt] at hob
  case right =>
    rw [show canonRec cur .right = (cur, true) from rfl] at hmem
    obtain ⟨-, -, hob⟩ := mem_openEdges_iff.mp hmem
    apply hno
    have htgt : recTarget cur true = np := by
      rw [hnp, shift_right]
      simp [recTarget]
    rwa [htgt] at hob
  case bottom =>
    rw [show canonRec cur .bottom = (cur, false) from rfl] at hmem
    obtain ⟨-, -, hob⟩ := mem_openEdges_iff.mp hmem
    apply hno
    have htgt : recTarget cur false = np := by
      rw [hnp, shift_bottom]
      simp [recTarget]
    rwa [htgt] at hob
  case left =>
    rw [show canonRec cur .left = (shift cur .left, true) from rfl, ← hnp] at hmem
    obtain ⟨-, -, hob⟩ := mem_openEdges_iff.mp hmem
    apply hno
    apply openBetween_symm
    have htgt : recTarget np true = cur := by
      rw [hnp, shift_left]
      refine Prod.ext ?_ ?_ <;> simp [recTarget] <;> try omega
    rwa [htgt] at hob

theorem pushGrid_openEdges {cols rows : ℕ} {g : Grid} {cur np : ℤ × ℤ} {w : Side}
    (hnp : np = shift cur w) (hbc : inB cols rows cur) (hbn : inB cols rows np) :
    openEdges cols rows (pushGrid g cur np w) =
      insert (canonRec cur w) (openEdges cols rows g) := by
  have htop : w = .top → recTarget np false = cur := by
    intro hw
    rw [hw] at hnp
    rw [hnp, shift_top]
    simp only [recTarget, if_neg (by simp : ¬ (false = true))]
    exact Prod.ext rfl (by omega)
  have hright : w = .right → recTarget cur true = np := by
    intro hw
    rw [hw] at hnp
    rw [hnp, shift_right]
    simp [recTarget]
  have hbottom : w = .bottom → recTarget cur false = np := by
    intro hw
    rw [hw] at hnp
    rw [hnp, shift_bottom]
    simp [recTarget]
  have hleft : w = .left → recTarget np true = cur := by
    intro hw
    rw [hw] at hnp
    rw [hnp, shift_left]
    refine Prod.ext ?_ ?_ <;> simp [recTarget] <;> try omega
  ext t
  obtain ⟨p, d⟩ := t
  rw [mem_openEdges_iff, Finset.mem_insert, mem_openEdges_iff]
  constructor
  · rintro ⟨hp, ht, hob⟩
    rcases (pushGrid_openBetween hnp).mp hob with h | ⟨h1, h2⟩ | ⟨h1, h2⟩
    · exact Or.inr ⟨hp, ht, h⟩
    · left
      cases d
      · have h2' : (p.1, p.2 + 1) = np := by simpa [recTarget] using h2
        have hw : w = .bottom := by
          apply side_eq_of_shift_eq (p := cur) (s := w)
          rw [← hnp, shift_bottom, ← h2', h1]
        rw [hw, h1]
        rfl
      · have h2' : (p.1 + 1, p.2) = np := by simpa [recTarget] using h2
        have hw : w = .right := by
          apply side_eq_of_shift_eq (p := cur) (s := w)
          rw [← hnp, shift_right, ← h2', h1]
        rw [hw, h1]
        rfl
    · left
      cases d
      · have h2' : (p.1, p.2 + 1) = cur := by simpa [recTarget] using h2
        have hw : w = .top := by
          apply side_eq_of_shift_eq (p := cur) (s := w)
          rw [← hnp, shift_top, ← h2']
          exact Prod.ext (by rw [h1]) (by rw [h1]; push_cast; omega)
        rw [hw] at hnp ⊢
        show (p, false) = (shift cur .top, false)
        rw [← hnp, h1]
      · have h2' : (p.1 + 1, p.2) = cur := by simpa [recTarget] using h2
        have hw : w = .left := by
          apply side_eq_of_shift_eq (p := cur) (s := w)
          rw [← hnp, shift_left, ← h2']
          exact Prod.ext (by rw [h1]; push_cast; omega) (by rw [h1])
        rw [hw] at hnp ⊢
        show (p, true) = (shift cur .left, true)
        rw [← hnp, h1]
  · rintro (heq | ⟨hp, ht, hob⟩)
    · rw [Prod.ext_iff] at heq
      obtain ⟨hp', hd'⟩ := heq
      cases w
      case top =>
        simp only [canonRec, ← hnp] at hp' hd'
        rw [hp', hd', htop rfl]
        exact ⟨hbn, hbc, (pushGrid_openBetween hnp).mpr (Or.inr (Or.inr ⟨rfl, rfl⟩))⟩
      case right =>
        simp only [canonRec] at hp' hd'
        rw [hp', hd', hright rfl]
        exact ⟨hbc, hbn, (pushGrid_openBetween hnp).mpr (Or.inr (Or.inl ⟨rfl, rfl⟩))⟩
      case bottom =>
        simp only [canonRec] at hp' hd'
        rw [hp', hd', hbottom rfl]
        exact ⟨hbc, hbn, (pushGrid_openBetween hnp).mpr (Or.inr (Or.inl ⟨rfl, rfl⟩))⟩
      case left =>
        simp only [canonRec, ← hnp] at hp' hd'
        rw [hp', hd', hleft rfl]
        exact ⟨hbn, hbc, (pushGrid_openBetween hnp).mpr (Or.inr (Or.inr ⟨rfl, rfl⟩))⟩
    · exact ⟨hp, ht, (pushGrid_openBetween hnp).mpr (Or.inl hob)⟩

/-! ## Acyclicity is preserved when a pendant edge to a fresh vertex is added -/

theorem isAcyclic_add_leaf {V : Type} {G G' : SimpleGraph V} {u v : V} (huv : u ≠ v)
    (hiso : ∀ z, ¬ G.Adj v z) (hacyc : G.IsAcyclic)
    (hadj : ∀ x y, G'.Adj x y ↔ G.Adj x y ∨ (x = u ∧ y = v) ∨ (x = v ∧ y = u)) :
    G'.IsAcyclic := by
  have hisoG' : ∀ z, G'.Adj v z → z = u := by
    intro z hz
    rcases (hadj v z).mp hz with hG | ⟨hvu, -⟩ | ⟨-, hzu⟩
    · exact absurd hG (hiso z)
    · exact absurd hvu.symm huv
    · exact hzu
  have key : ∀ (c' : G'.Walk v v), c'.IsCycle → False := by
    intro c' hc'
    cases c' with
    | nil => exact SimpleGraph.Walk.IsCycle.not_of_nil hc'
    | cons hadj' p =>
      rename_i x
      have hx : x = u := hisoG' x hadj'
      rw [SimpleGraph.Walk.cons_isCycle_iff] at hc'
      apply hc'.2
      obtain ⟨z, hzadj, q, hq⟩ :=
        SimpleGraph.Walk.exists_eq_cons_of_ne
          (fun h : v = x => huv (by rw [hx] at h; exact h.symm)) p.reverse
      have hz : z = u := hisoG' z hzadj
      have hmem : s(v, z) ∈ p.reverse.edges := by
        rw [hq, SimpleGraph.Walk.edges_cons]
        exact List.mem_cons_self _ _
      rw [SimpleGraph.Walk.edges_reverse, List.mem_reverse] at hmem
      rwa [hz, ← hx] at hmem
  classical
  intro w c hc
  by_cases hv : v ∈ c.support
  · exact key (c.rotate hv) (hc.rotate hv)
  · have hedges : ∀ e ∈ c.edges, e ∈ G.edgeSet := by
      intro e
      refine Sym2.ind ?_ e
      intro x y he
      have heG' : G'.Adj x y := c.adj_of_mem_edges he
      rw [SimpleGraph.mem_edgeSet]
      rcases (hadj x y).mp heG' with hG | ⟨-, hyv⟩ | ⟨hxv, -⟩
      · exact hG
      · exact absurd (hyv ▸ c.snd_mem_support_of_mem_edges he) hv
      · exact absurd (hxv ▸ c.fst_mem_support_of_mem_edges he) hv
    exact hacyc (c.transfer G hedges) (hc.transfer hedges)

/-! ## The loop invariant holds initially and is preserved -/

theorem initGrid_no_open (seed : ℕ) (p q : ℤ × ℤ) :
    ¬ openBetween (initState seed).grid p q := by
  rintro ⟨sd, -, h1, -⟩
  have hT : wallToward (initState seed).grid p sd = true := by
    show wallToward (setVisited createGrid (0, 0)) p sd = true
    rw [wallToward_setVisited]
    cases sd <;> rfl
  rw [hT] at h1
  exact Bool.noConfusion h1

theorem inv_init {cols rows seed : ℕ} (hc : 0 < cols) (hr : 0 < rows) :
    Inv cols rows (initState seed) := by
  have hb00 : inB cols rows (0, 0) := by
    refine ⟨le_refl 0, ?_, le_refl 0, ?_⟩
    · show (0 : ℤ) < (cols : ℤ); exact_mod_cast hc
    · show (0 : ℤ) < (rows : ℤ); exact_mod_cast hr
  have hvis : ∀ q : ℤ × ℤ, ((initState seed).grid q).visited = true ↔ q = (0, 0) := by
    intro q
    show ((setVisited createGrid (0, 0)) q).visited = true ↔ _
    rw [visited_setVisited]
    simp [createGrid]
  have hE : openEdges cols rows (initState seed).grid = ∅ := by
    ext t
    obtain ⟨p, d⟩ := t
    simp only [Finset.not_mem_empty, iff_false]
    intro hmem
    exact initGrid_no_open seed _ _ (mem_openEdges_iff.mp hmem).2.2
  have hV : visitedFinset cols rows (initState seed).grid = {(0, 0)} := by
    ext q
    simp only [visitedFinset, Finset.mem_filter, Finset.mem_singleton]
    constructor
    · rintro ⟨-, hq⟩; exact (hvis q).mp hq
    · rintro rfl; exact ⟨mem_cells.mpr hb00, (hvis _).mpr rfl⟩
  refine ⟨(hvis _).mpr rfl, ?_, ?_, ?_, ?_, ?_, ?_, ?_⟩
  · intro p hp
    have hp0 : p = (0, 0) := by
      simpa [initState] using hp
    rw [hp0]
    exact ⟨hb00, (hvis _).mpr rfl⟩
  · intro p q _ _ hob
    exact absurd hob (initGrid_no_open seed p q)
  · rw [hE, hV]; simp
  · intro p _ hp
    rw [(hvis p).mp hp]
    exact .refl _
  · intro p hp hpv hpstack
    exfalso
    apply hpstack
    rw [(hvis p).mp hpv]
    show (0, 0) ∈ (initState seed).stack
    simp [initState]
  · intro p sd
    show wallToward (setVisited createGrid (0, 0)) p sd = _
    rw [wallToward_setVisited]
    show _ = wallToward (setVisited createGrid (0, 0)) _ _
    rw [wallToward_setVisited]
    cases sd <;> rfl
  · intro w c hcyc
    cases c with
    | nil => exact SimpleGraph.Walk.IsCycle.not_of_nil hcyc
    | cons h p => exact initGrid_no_open seed _ _ h.1.2.2

theorem inv_step {cols rows : ℕ} {s : CarveState} (hinv : Inv cols rows s) :
    Inv cols rows (stepCarve cols rows s) := by
  obtain ⟨origin, stackB, openVis, count, reach, closed, wsym, acyclic⟩ := hinv
  cases hst : s.stack with
  | nil => rw [stepCarve_nil hst]; exact ⟨origin, stackB, openVis, count, reach, closed,
      wsym, acyclic⟩
  | cons cur rest =>
    by_cases hemp : neighborsUnvisited cols rows s.grid cur.1 cur.2 = []
    · rw [stepCarve_pop hst hemp]
      refine ⟨origin, ?_, openVis, count, reach, ?_, wsym, acyclic⟩
      · intro p hp
        exact stackB p (by rw [hst]; exact List.mem_cons_of_mem cur hp)
      · intro p hp hpv hpr sd hsb
        by_cases hpc : p = cur
        · subst hpc
          have := neighborsUnvisited_nil hemp sd (by simpa using hsb)
          simpa using this
        · exact closed p hp hpv (by
            rw [hst]
            intro hmem
            rcases List.mem_cons.mp hmem with h | h
            · exact hpc h
            · exact hpr h) sd hsb
    · obtain ⟨w, np, hnp, hbn, hv, heq⟩ := stepCarve_push hst hemp
      rw [heq]
      have hcurmem : cur ∈ s.stack := by rw [hst]; exact List.mem_cons_self _ _
      have hbc : inB cols rows cur := (stackB cur hcurmem).1
      have hvc : (s.grid cur).visited = true := (stackB cur hcurmem).2
      have hno : ¬ openBetween s.grid cur np := by
        intro hob
        have := (openVis cur np hbc hbn hob).2
        rw [this] at hv
        exact Bool.noConfusion hv
      have hcne : cur ≠ np := fun h => shift_ne cur w (by rw [← hnp, ← h])
      have hvis := pushGrid_visited s.grid cur np w
      have mono := pushGrid_wall_mono s.grid cur np w
      refine ⟨(hvis _).mpr (Or.inr origin), ?_, ?_, ?_, ?_, ?_, ?_, ?_⟩
      · intro p hp
        rcases List.mem_cons.mp hp with h | h
        · rw [h]; exact ⟨hbn, (hvis _).mpr (Or.inl rfl)⟩
        · rcases List.mem_cons.mp h with h' | h'
          · rw [h']; exact ⟨hbc, (hvis _).mpr (Or.inr hvc)⟩
          · have := stackB p (by rw [hst]; exact List.mem_cons_of_mem cur h')
            exact ⟨this.1, (hvis _).mpr (Or.inr this.2)⟩
      · intro p q hp hq hob
        rcases (pushGrid_openBetween hnp).mp hob with h | ⟨h1, h2⟩ | ⟨h1, h2⟩
        · have := openVis p q hp hq h
          exact ⟨(hvis _).mpr (Or.inr this.1), (hvis _).mpr (Or.inr this.2)⟩
        · rw [h1, h2]
          exact ⟨(hvis _).mpr (Or.inr hvc), (hvis _).mpr (Or.inl rfl)⟩
        · rw [h1, h2]
          exact ⟨(hvis _).mpr (Or.inl rfl), (hvis _).mpr (Or.inr hvc)⟩
      · show (openEdges cols rows (pushGrid s.grid cur np w)).card + 1 =
          (visitedFinset cols rows (pushGrid s.grid cur np w)).card
        rw [pushGrid_openEdges hnp hbc hbn, pushGrid_visitedFinset hbn,
          Finset.card_insert_of_not_mem (canonRec_not_mem hnp hno),
          Finset.card_insert_of_not_mem (by
            intro hmem
            rw [visitedFinset, Finset.mem_filter] at hmem
            rw [hmem.2] at hv
            exact Bool.noConfusion hv)]
        omega
      · intro p hp hpv
        rcases (hvis p).mp hpv with h | h
        · rw [h]
          refine Reach.step (reach_mono mono (reach cur hbc hvc)) ?_
          exact ⟨hbc, hbn, (pushGrid_openBetween hnp).mpr (Or.inr (Or.inl ⟨rfl, rfl⟩))⟩
        · exact reach_mono mono (reach p hp h)
      · intro p hp hpv hpstack sd hsb
        have hpnp : p ≠ np := fun h => hpstack (by rw [h]; exact List.mem_cons_self _ _)
        have hpold : (s.grid p).visited = true := by
          rcases (hvis p).mp hpv with h | h
          · exact absurd h hpnp
          · exact h
        have hpoldstack : p ∉ s.stack := by
          rw [hst]
          intro hmem
          exact hpstack (List.mem_cons_of_mem np hmem)
        exact (hvis _).mpr (Or.inr (closed p hp hpold hpoldstack sd hsb))
      · intro p sd
        rw [pushGrid_wall, pushGrid_wall]
        have hcond : ((p = cur ∧ sd = w) ∨ (p = np ∧ sd = oppSide w)) ↔
            ((shift p sd = cur ∧ oppSide sd = w) ∨
              (shift p sd = np ∧ oppSide sd = oppSide w)) := by
          constructor
          · rintro (⟨h1, h2⟩ | ⟨h1, h2⟩)
            · refine Or.inr ⟨?_, by rw [h2]⟩
              rw [h1, h2, ← hnp]
            · refine Or.inl ⟨?_, by rw [h2, oppSide_oppSide]⟩
              rw [h1, h2, hnp, shift_shift_opp]
          · rintro (⟨h1, h2⟩ | ⟨h1, h2⟩)
            · have hsd : sd = oppSide w := by rw [← oppSide_oppSide sd, h2]
              refine Or.inr ⟨?_, hsd⟩
              have := shift_shift_opp p sd
              rw [h1, hsd, oppSide_oppSide] at this
              rw [← this, hnp]
            · have hsd : sd = w := oppSide_inj h2
              refine Or.inl ⟨?_, hsd⟩
              apply shift_left_inj (s := w)
              rw [← hsd, h1, hnp, hsd]
        by_cases hc1 : (p = cur ∧ sd = w) ∨ (p = np ∧ sd = oppSide w)
        · rw [if_pos hc1, if_pos (hcond.mp hc1)]
        · rw [if_neg hc1, if_neg (fun h => hc1 (hcond.mpr h))]
          exact wsym p sd
      · exact isAcyclic_add_leaf hcne (fun z hz => by
          have := (openVis np z hz.1.1 hz.1.2.1 hz.1.2.2).1
          rw [this] at hv
          exact Bool.noConfusion hv) acyclic (pushGrid_adj hnp hbc hbn)

theorem inv_stepN {cols rows : ℕ} (seed : ℕ) (hc : 0 < cols) (hr : 0 < rows) (n : ℕ) :
    Inv cols rows (stepN cols rows n (initState seed)) := by
  induction n with
  | zero => exact inv_init hc hr
  | succ n ih =>
    rw [stepN_succ_out]
    exact inv_step ih

/-- A visited set that contains `(0,0)` and is closed under in-bounds adjacency
contains every in-bounds cell (the grid graph is connected). -/
theorem visited_all_of_closed {cols rows : ℕ} {g : Grid}
    (h00 : (g (0, 0)).visited = true)
    (hcl : ∀ p, inB cols rows p → (g p).visited = true →
      ∀ sd : Side, inB cols rows (shift p sd) → (g (shift p sd)).visited = true)
    (hr : 0 < rows) :
    ∀ p, inB cols rows p → (g p).visited = true := by
  have hcol : ∀ a : ℕ, (a : ℤ) < (cols : ℤ) → (g ((a : ℤ), 0)).visited = true := by
    intro a
    induction a with
    | zero =>
      intro _
      simpa using h00
    | succ a ih =>
      intro ha
      have ha1 : ((a : ℤ)) + 1 < (cols : ℤ) := by push_cast at ha; omega
      have ha' : (a : ℤ) < (cols : ℤ) := by omega
      have hbA : inB cols rows ((a : ℤ), 0) :=
        ⟨Int.natCast_nonneg a, ha', le_refl 0, by show (0 : ℤ) < (rows : ℤ); exact_mod_cast hr⟩
      have h2 := hcl _ hbA (ih ha') .right (by
        rw [shift_right]
        exact ⟨by omega, by simpa using ha1, le_refl 0,
          by show (0 : ℤ) < (rows : ℤ); exact_mod_cast hr⟩)
      rw [shift_right] at h2
      have hcast : ((a + 1 : ℕ) : ℤ) = (a : ℤ) + 1 := by push_cast; rfl
      rw [hcast]
      simpa using h2
  have main : ∀ (a b : ℕ), (a : ℤ) < (cols : ℤ) → (b : ℤ) < (rows : ℤ) →
      (g ((a : ℤ), (b : ℤ))).visited = true := by
    intro a b hca
    induction b with
    | zero =>
      intro _
      simpa using hcol a hca
    | succ b ih =>
      intro hrb
      have hrb1 : ((b : ℤ)) + 1 < (rows : ℤ) := by push_cast at hrb; omega
      have hrb' : (b : ℤ) < (rows : ℤ) := by omega
      have hbA : inB cols rows ((a : ℤ), (b : ℤ)) :=
        ⟨Int.natCast_nonneg a, hca, Int.natCast_nonneg b, hrb'⟩
      have h2 := hcl _ hbA (ih hrb') .bottom (by
        rw [shift_bottom]
        exact ⟨Int.natCast_nonneg a, hca, by omega, by simpa using hrb1⟩)
      rw [shift_bottom] at h2
      have hcast : ((b + 1 : ℕ) : ℤ) = (b : ℤ) + 1 := by push_cast; rfl
      rw [hcast]
      simpa using h2
  intro p hp
  obtain ⟨h1, h2, h3, h4⟩ := hp
  have hA : p.1 = ((p.1.toNat : ℕ) : ℤ) := (Int.toNat_of_nonneg h1).symm
  have hB : p.2 = ((p.2.toNat : ℕ) : ℤ) := (Int.toNat_of_nonneg h3).symm
  have := main p.1.toNat p.2.toNat (by rw [← hA]; exact h2) (by rw [← hB]; exact h4)
  rw [← hA, ← hB] at this
  simpa using this

/-- The state after `carveSteps` iterations: stack empty, invariant holds, and every
in-bounds cell is visited. -/
theorem carve_final {cols rows : ℕ} (seed : ℕ) (hc : 0 < cols) (hr : 0 < rows) :
    (stepN cols rows (carveSteps cols rows) (initState seed)).stack = [] ∧
      Inv cols rows (stepN cols rows (carveSteps cols rows) (initState seed)) ∧
      ∀ p, inB cols rows p → ((carvedGrid cols rows seed) p).visited = true := by
  have hstk := stack_empty_of_measure_le (carveSteps cols rows) (initState seed)
    (measure_init hc hr)
  have hinv := inv_stepN seed hc hr (carveSteps cols rows)
  refine ⟨hstk, hinv, ?_⟩
  exact visited_all_of_closed hinv.origin
    (fun p hp hpv sd hsb => hinv.closed p hp hpv (by rw [hstk]; exact List.not_mem_nil p)
      sd hsb) hr

theorem stepCarve_visited_mono {cols rows : ℕ} {s : CarveState} (p : ℤ × ℤ)
    (h : (s.grid p).visited = true) : ((stepCarve cols rows s).grid p).visited = true := by
  cases hst : s.stack with
  | nil => rw [stepCarve_nil hst]; exact h
  | cons cur rest =>
    by_cases hemp : neighborsUnvisited cols rows s.grid cur.1 cur.2 = []
    · rw [stepCarve_pop hst hemp]; exact h
    · obtain ⟨w, np, hnp, hbn, hv, heq⟩ := stepCarve_push hst hemp
      rw [heq]
      exact (pushGrid_visited _ _ _ _ _).mpr (Or.inr h)

/-! ## The claims -/

/-- Claim C1: `carveMaze` is a pure function of its arguments — two invocations with
identical `cols`, `rows`, `seed`, `entry`, `exit` produce grids with identical wall
states (and visited flags) for every cell. -/
theorem carveMaze_deterministic (a : CarveArgs) (g1 g2 : Grid)
    (h1 : g1 = carveMaze a) (h2 : g2 = carveMaze a) :
    ∀ p : ℤ × ℤ, (g1 p).walls = (g2 p).walls ∧ (g1 p).visited = (g2 p).visited := by
  subst h1
  subst h2
  exact fun p => ⟨rfl, rfl⟩

theorem carveMaze_deterministic_witness :
    ((carveMaze ⟨2, 2, 0, none, none⟩) (0, 0)).walls =
      ((carveMaze ⟨2, 2, 0, none, none⟩) (0, 0)).walls :=
  (carveMaze_deterministic ⟨2, 2, 0, none, none⟩ _ _ rfl rfl (0, 0)).1

/-- Claim C2: for positive `cols` and `rows`, the grid produced by the carving loop
(before entry/exit carving) has exactly `rows*cols − 1` open adjacencies (pairs of
adjacent cells whose shared wall is cleared on both sides), every in-bounds cell is
reachable from `(0,0)` through open walls, and the open-adjacency graph has no
cycles — it is a spanning tree of the grid graph. -/
theorem carvedGrid_spanning_tree (cols rows seed : ℕ) (hc : 0 < cols) (hr : 0 < rows) :
    (openEdges cols rows (carvedGrid cols rows seed)).card = rows * cols - 1 ∧
      (∀ p, inB cols rows p → Reach cols rows (carvedGrid cols rows seed) (0, 0) p) ∧
      (openGraph cols rows (carvedGrid cols rows seed)).IsAcyclic := by
  obtain ⟨hstk, hinv, hall⟩ := carve_final seed hc hr
  have hVall : visitedFinset cols rows (carvedGrid cols rows seed) = cells cols rows := by
    ext q
    simp only [visitedFinset, Finset.mem_filter]
    exact ⟨fun h => h.1, fun h => ⟨h, hall q (mem_cells.mp h)⟩⟩
  refine ⟨?_, ?_, ?_⟩
  · have hcount := hinv.count
    have hcard : (visitedFinset cols rows (carvedGrid cols rows seed)).card =
        cols * rows := by rw [hVall, cells_card]
    have hcomm : cols * rows = rows * cols := Nat.mul_comm cols rows
    show (openEdges cols rows
      (stepN cols rows (carveSteps cols rows) (initState seed)).grid).card = rows * cols - 1
    have hcard' : (visitedFinset cols rows
        (stepN cols rows (carveSteps cols rows) (initState seed)).grid).card =
        cols * rows := hcard
    omega
  · intro p hp
    exact hinv.reach p hp (hall p hp)
  · exact hinv.acyclic

theorem carvedGrid_spanning_tree_witness :
    (openEdges 2 2 (carvedGrid 2 2 0)).card = 2 * 2 - 1 ∧
      Reach 2 2 (carvedGrid 2 2 0) (0, 0) (1, 1) := by
  obtain ⟨h1, h2, h3⟩ := carvedGrid_spanning_tree 2 2 0 (by decide) (by decide)
  exact ⟨h1, h2 (1, 1) (by decide)⟩

/-- Claim C3: the seeded generator keeps a 32-bit unsigned state initialised to the
seed truncated to 32 bits; each call updates it to
`(state * 1664525 + 1013904223) mod 2^32` and returns `state / 2^32`, an exact
rational in `[0, 1)` determined by the seed and the call index alone. -/
theorem seededRandom_spec (seed k : ℕ) :
    createSeededRandom seed 0 = seed % 2 ^ 32 ∧
      createSeededRandom seed (k + 1) =
        (createSeededRandom seed k * 1664525 + 1013904223) % 2 ^ 32 ∧
      rndOut seed k = (createSeededRandom seed (k + 1) : ℚ) / 2 ^ 32 ∧
      0 ≤ rndOut seed k ∧ rndOut seed k < 1 := by
  refine ⟨rfl, rfl, rfl, ?_, ?_⟩
  · unfold rndOut
    positivity
  · unfold rndOut
    rw [div_lt_one (by positivity)]
    have hlt : createSeededRandom seed (k + 1) < 2 ^ 32 := by
      show lcgNext (createSeededRandom seed k) < 2 ^ 32
      exact Nat.mod_lt _ (by norm_num)
    exact_mod_cast hlt

/-- Claim C9: for positive `cols` and `rows` the carving loop terminates — after
`2·cols·rows` iterations the stack is empty; whenever the stack has emptied, every
in-bounds cell has been visited; and visitedness is monotone (a cell is marked
visited once and never unmarked). -/
theorem carve_terminates (cols rows seed : ℕ) (hc : 0 < cols) (hr : 0 < rows) :
    (stepN cols rows (carveSteps cols rows) (initState seed)).stack = [] ∧
      (∀ n, (stepN cols rows n (initState seed)).stack = [] →
        ∀ p, inB cols rows p →
          ((stepN cols rows n (initState seed)).grid p).visited = true) ∧
      (∀ n (p : ℤ × ℤ), ((stepN cols rows n (initState seed)).grid p).visited = true →
        ((stepN cols rows (n + 1) (initState seed)).grid p).visited = true) := by
  refine ⟨(carve_final seed hc hr).1, ?_, ?_⟩
  · intro n hn
    have hinv := inv_stepN seed hc hr n
    exact visited_all_of_closed hinv.origin
      (fun p hp hpv sd hsb =>
        hinv.closed p hp hpv (by rw [hn]; exact List.not_mem_nil p) sd hsb) hr
  · intro n p h
    rw [stepN_succ_out]
    exact stepCarve_visited_mono p h

theorem carve_terminates_witness :
    (stepN 2 2 (carveSteps 2 2) (initState 0)).stack = [] ∧
      ((stepN 2 2 (carveSteps 2 2) (initState 0)).grid (1, 1)).visited = true := by
  obtain ⟨h1, h2, h3⟩ := carve_terminates 2 2 0 (by decide) (by decide)
  exact ⟨h1, h2 (carveSteps 2 2) h1 (1, 1) (by decide)⟩

/-- Claim C10: during the carving loop every grid access is in bounds —
`neighborsUnvisited` only returns targets with `0 ≤ nx < cols` and `0 ≤ ny < rows`,
and every coordinate ever on the stack (whose cell the loop reads and writes) is in
bounds. -/
theorem carve_in_bounds (cols rows : ℕ) (hc : 0 < cols) (hr : 0 < rows) :
    (∀ (g : Grid) (x y : ℤ) (t : DirEntry × ℤ × ℤ),
        t ∈ neighborsUnvisited cols rows g x y → inB cols rows t.2) ∧
      (∀ seed n, ∀ p ∈ (stepN cols rows n (initState seed)).stack, inB cols rows p) := by
  constructor
  · intro g x y t ht
    exact (mem_neighborsUnvisited ht).2.2.1
  · intro seed n p hp
    exact ((inv_stepN seed hc hr n).stackB p hp).1

theorem carve_in_bounds_witness : inB 2 2 ((0 : ℤ), (0 : ℤ)) :=
  (carve_in_bounds 2 2 (by decide) (by decide)).2 0 1 (0, 0) (by decide)

/-- Helper for the amended wall-synchronisation claim: clearing a single wall flag
whose far side lies outside the grid preserves the two-copies invariant on all
in-bounds pairs. -/
theorem setWall_outside_sym {cols rows : ℕ} {g : Grid} {E : ℤ × ℤ} {es : Side}
    (hout : ¬ inB cols rows (shift E es))
    (hsym : ∀ p sd, inB cols rows p → inB cols rows (shift p sd) →
      wallToward g p sd = wallToward g (shift p sd) (oppSide sd)) :
    ∀ p sd, inB cols rows p → inB cols rows (shift p sd) →
      wallToward (setWall g E es false) p sd =
        wallToward (setWall g E es false) (shift p sd) (oppSide sd) := by
  intro p sd hp hps
  rw [wallToward_setWall, wallToward_setWall]
  have hc1 : ¬(p = E ∧ sd = es) := by
    rintro ⟨rfl, rfl⟩
    exact hout hps
  have hc2 : ¬(shift p sd = E ∧ oppSide sd = es) := by
    rintro ⟨h1, h2⟩
    apply hout
    rw [← h1, ← h2, shift_shift_opp]
    exact hp
  rw [if_neg hc1, if_neg hc2]
  exact hsym p sd hp hps

/-- Claim C4, counterexample: with `cols = rows = 2`, `seed = 0` and the in-bounds
entry point `{x:0, y:0, side:"bottom"}` (whose named wall is the interior wall shared
with `(0,1)`), the returned grid has the entry cell's bottom flag cleared while the
neighbour's top flag is still set: the two copies of the shared wall disagree, so the
entry/exit carving step does not clear both copies. -/
theorem wall_sync_counterexample :
    (0, 1) = shift (0, 0) Side.bottom ∧
      wallToward (carveMaze ⟨2, 2, 0, some ⟨some 0, some 0, some .bottom⟩, none⟩)
        (0, 0) .bottom = false ∧
      wallToward (carveMaze ⟨2, 2, 0, some ⟨some 0, some 0, some .bottom⟩, none⟩)
        (0, 1) (oppSide .bottom) = true := by
  refine ⟨by decide, by decide, by decide⟩

/-- Claim C4, amended: every mutation performed by the carving loop clears both
copies of a shared wall atomically, so in the grid before entry/exit carving the two
copies of every shared wall agree for all arguments; the entry/exit step clears only
the named cell's own flag, which preserves the invariant whenever each resolved
entry/exit side faces outward across the grid boundary (as the default entry and
exit do), but an interior-facing entry/exit side can leave the two copies unequal. -/
theorem wall_sync_amended (cols rows seed : ℕ) (hc : 0 < cols) (hr : 0 < rows) :
    (∀ (p : ℤ × ℤ) (sd : Side),
        wallToward (carvedGrid cols rows seed) p sd =
          wallToward (carvedGrid cols rows seed) (shift p sd) (oppSide sd)) ∧
      ∀ (entry ex : Option EPoint),
        ¬ inB cols rows (shift ((resolveEntry entry).x, (resolveEntry entry).y)
            (resolveEntry entry).side) →
        ¬ inB cols rows (shift ((resolveExit cols rows ex).x, (resolveExit cols rows ex).y)
            (resolveExit cols rows ex).side) →
        ∀ (p : ℤ × ℤ) (sd : Side), inB cols rows p → inB cols rows (shift p sd) →
          wallToward (carveMaze ⟨cols, rows, seed, entry, ex⟩) p sd =
            wallToward (carveMaze ⟨cols, rows, seed, entry, ex⟩) (shift p sd)
              (oppSide sd) := by
  have hsym0 := (inv_stepN seed hc hr (carveSteps cols rows)).wsym
  refine ⟨hsym0, ?_⟩
  intro entry ex hne hnx p sd hp hps
  exact setWall_outside_sym hnx
    (setWall_outside_sym hne (fun p' sd' _ _ => hsym0 p' sd')) p sd hp hps

theorem wall_sync_amended_witness :
    wallToward (carveMaze ⟨2, 2, 0, none, none⟩) (0, 0) .right =
      wallToward (carveMaze ⟨2, 2, 0, none, none⟩) (shift (0, 0) .right)
        (oppSide .right) :=
  (wall_sync_amended 2 2 0 (by decide) (by decide)).2 none none (by decide) (by decide)
    (0, 0) .right (by decide) (by decide)

/-- Claim C5: the entry point resolves to default `{x:0, y:0, side:"top"}` and the
exit to `{x:cols-1, y:rows-1, side:"bottom"}`, each missing field substituted
independently; the resolved entry wall and the resolved exit wall are unconditionally
cleared, so both are open in the returned grid regardless of the tree structure.
(The in-bounds hypotheses reflect that an out-of-range resolved point is an indexing
error in the source.) -/
theorem entry_exit_spec (a : CarveArgs)
    (hbe : inB a.cols a.rows ((resolveEntry a.entry).x, (resolveEntry a.entry).y))
    (hbx : inB a.cols a.rows
      ((resolveExit a.cols a.rows a.exit).x, (resolveExit a.cols a.rows a.exit).y)) :
    resolveEntry none = ⟨0, 0, .top⟩ ∧
      (∀ ep : EPoint, resolveEntry (some ep) =
        ⟨ep.x.getD 0, ep.y.getD 0, ep.side.getD .top⟩) ∧
      resolveExit a.cols a.rows none =
        ⟨(a.cols : ℤ) - 1, (a.rows : ℤ) - 1, .bottom⟩ ∧
      (∀ ep : EPoint, resolveExit a.cols a.rows (some ep) =
        ⟨ep.x.getD ((a.cols : ℤ) - 1), ep.y.getD ((a.rows : ℤ) - 1),
          ep.side.getD .bottom⟩) ∧
      wallToward (carveMaze a) ((resolveEntry a.entry).x, (resolveEntry a.entry).y)
        (resolveEntry a.entry).side = false ∧
      wallToward (carveMaze a)
        ((resolveExit a.cols a.rows a.exit).x, (resolveExit a.cols a.rows a.exit).y)
        (resolveExit a.cols a.rows a.exit).side = false := by
  refine ⟨rfl, fun ep => rfl, rfl, fun ep => rfl, ?_, ?_⟩
  · show wallToward (setWall (setWall (carvedGrid a.cols a.rows a.seed)
      ((resolveEntry a.entry).x, (resolveEntry a.entry).y) (resolveEntry a.entry).side
      false) ((resolveExit a.cols a.rows a.exit).x, (resolveExit a.cols a.rows a.exit).y)
      (resolveExit a.cols a.rows a.exit).side false) _ _ = false
    rw [wallToward_setWall]
    split
    · rfl
    · rw [wallToward_setWall, if_pos ⟨rfl, rfl⟩]
  · show wallToward (setWall (setWall (carvedGrid a.cols a.rows a.seed)
      ((resolveEntry a.entry).x, (resolveEntry a.entry).y) (resolveEntry a.entry).side
      false) ((resolveExit a.cols a.rows a.exit).x, (resolveExit a.cols a.rows a.exit).y)
      (resolveExit a.cols a.rows a.exit).side false) _ _ = false
    rw [wallToward_setWall, if_pos ⟨rfl, rfl⟩]

theorem entry_exit_spec_witness :
    wallToward (carveMaze ⟨2, 2, 0, none, none⟩)
      ((resolveEntry none).x, (resolveEntry none).y) (resolveEntry none).side = false :=
  (entry_exit_spec ⟨2, 2, 0, none, none⟩ (by decide) (by decide)).2.2.2.2.1

/-- Claim C6: `setOptions` merges the partial options into the configuration and
redraws without re-carving — the stored grid (including every cell's wall data) is
unchanged and the subsequent redraw renders the old grid against the merged options;
`redraw` never modifies the widget state; `regenerate` instead replaces the grid with
a freshly carved one from the merged configuration. -/
theorem setOptions_frame (wg : Widget) (patch : PartialOptions) (cssSize : ℤ) :
    (setOptions wg patch).grid = wg.grid ∧
      (∀ q : ℤ × ℤ, ((setOptions wg patch).grid q).walls = (wg.grid q).walls) ∧
      redraw wg = wg ∧
      (setOptions wg patch).opts = mergeInto wg.opts patch ∧
      drawWidget (setOptions wg patch) cssSize =
        draw wg.grid (mergeInto wg.opts patch).cols (mergeInto wg.opts patch).rows
          cssSize (mergeInto wg.opts patch).lineWidthFrac
          (mergeInto wg.opts patch).wallColor (mergeInto wg.opts patch).bgColor ∧
      (regenerate wg patch).opts = mergeInto wg.opts patch ∧
      (regenerate wg patch).grid = carveMaze (argsOf (mergeInto wg.opts patch)) :=
  ⟨rfl, fun q => rfl, rfl, rfl, rfl, rfl, rfl⟩

/-- Claim C7: the rendering pass computes `cell = pixelSize / cols` and
`t = max(1, ceil(cell * lineWidthRatio))` (so `cols = 5`, `pixelSize = 500`,
`lineWidthRatio = 0.25` give `cell = 100` and `t = 25`); after the background fill
it emits, for every cell `(x, y)` with origin `(⌊x·cell⌋, ⌊y·cell⌋)` and extent
`⌈cell⌉`, a top-wall and a left-wall rectangle when those walls are present, a
right-wall rectangle (flush to the cell's right edge) only in the last column, and a
bottom-wall rectangle only in the last row. -/
theorem draw_spec (g : Grid) (cols rows : ℕ) (cssSize : ℤ) (frac : ℚ)
    (wallColor bgColor : String) :
    draw g cols rows cssSize frac wallColor bgColor =
      ⟨bgColor, 0, 0, cssSize, cssSize⟩ ::
        ((List.range rows).flatMap fun y =>
          (List.range cols).flatMap fun x =>
            (if (g ((x : ℤ), (y : ℤ))).walls.top = true then
              [⟨wallColor, ⌊(x : ℚ) * ((cssSize : ℚ) / cols)⌋,
                ⌊(y : ℚ) * ((cssSize : ℚ) / cols)⌋, ⌈(cssSize : ℚ) / cols⌉,
                max 1 ⌈(cssSize : ℚ) / cols * frac⌉⟩]
            else []) ++
            (if (g ((x : ℤ), (y : ℤ))).walls.left = true then
              [⟨wallColor, ⌊(x : ℚ) * ((cssSize : ℚ) / cols)⌋,
                ⌊(y : ℚ) * ((cssSize : ℚ) / cols)⌋,
                max 1 ⌈(cssSize : ℚ) / cols * frac⌉, ⌈(cssSize : ℚ) / cols⌉⟩]
            else []) ++
            (if x = cols - 1 ∧ (g ((x : ℤ), (y : ℤ))).walls.right = true then
              [⟨wallColor,
                ⌊(x : ℚ) * ((cssSize : ℚ) / cols)⌋ + ⌈(cssSize : ℚ) / cols⌉ -
                  max 1 ⌈(cssSize : ℚ) / cols * frac⌉,
                ⌊(y : ℚ) * ((cssSize : ℚ) / cols)⌋,
                max 1 ⌈(cssSize : ℚ) / cols * frac⌉, ⌈(cssSize : ℚ) / cols⌉⟩]
            else []) ++
            (if y = rows - 1 ∧ (g ((x : ℤ), (y : ℤ))).walls.bottom = true then
              [⟨wallColor, ⌊(x : ℚ) * ((cssSize : ℚ) / cols)⌋,
                ⌊(y : ℚ) * ((cssSize : ℚ) / cols)⌋ + ⌈(cssSize : ℚ) / cols⌉ -
                  max 1 ⌈(cssSize : ℚ) / cols * frac⌉,
                ⌈(cssSize : ℚ) / cols⌉, max 1 ⌈(cssSize : ℚ) / cols * frac⌉⟩]
            else [])) ∧
      (500 : ℚ) / ((5 : ℕ) : ℚ) = 100 ∧
      max 1 ⌈((500 : ℚ) / ((5 : ℕ) : ℚ)) * (1 / 4)⌉ = (25 : ℤ) := by
  refine ⟨rfl, by norm_num, ?_⟩
  have h1 : ((500 : ℚ) / ((5 : ℕ) : ℚ)) * (1 / 4) = ((25 : ℤ) : ℚ) := by norm_num
  rw [h1, Int.ceil_intCast]
  norm_num

/-- Claim C8, counterexample: `getState()` copies the options record field by field,
so the returned snapshot holds the *same* `entry` object reference as the internal
configuration; mutating the nested entry record through the snapshot (here: setting
its `x` to 3) changes what the controller's internal configuration dereferences —
the snapshot is not a deep, independent copy of the configuration. -/
theorem getState_counterexample :
    (getState widget0).1.entryRef = widget0.opts.entryRef ∧
      heapSet heap0 (getState widget0).1.entryRef ⟨some 3, some 0, some .top⟩
          widget0.opts.entryRef ≠ heap0 widget0.opts.entryRef :=
  ⟨rfl, by decide⟩

/-- Claim C8, amended: `getState` deep-copies the grid data and copies the options
record field by field; the copied top-level fields are independent values, but the
nested `entry`/`exit` records are returned as the same references (aliased with the
internal configuration), so mutating them through the snapshot mutates the internal
configuration; subsequent redraw output is nevertheless unchanged by any such heap
mutation, because the drawing pass never dereferences `entry`/`exit`. -/
theorem getState_amended (wg : WidgetRefs) (h : Heap) (r : ℕ) (v : EPoint)
    (cssSize : ℤ) :
    (getState wg).1 = wg.opts ∧
      (getState wg).1.entryRef = wg.opts.entryRef ∧
      (getState wg).1.exitRef = wg.opts.exitRef ∧
      (∀ p : ℤ × ℤ, (getState wg).2 p = wg.grid p) ∧
      drawWidgetRefs wg (heapSet h r v) cssSize = drawWidgetRefs wg h cssSize :=
  ⟨rfl, rfl, rfl, fun p => rfl, rfl⟩

end MazeWidget
